import Mathlib

/-!
Verification of the go-rst lexer (package `parse`, file `lex.go`).

The repository ships two lexer revisions in one file, separated by a marker:
the first (and only complete) one is a channel-based state machine over a
flat byte cursor (`lexer`, `lexStart`, `lexSection`); the second revision
(a per-line cursor with `newLexer`, `backup(n)`, `gotoLocation`) is present
only through its tests.  The embedding below models the complete revision
byte-for-byte: Go strings become `List Nat` of bytes, `utf8.DecodeRuneInString`
becomes `decodeRune`, the goroutine/channel pair becomes a fuel-indexed run
function that accumulates emitted items in a list.  Where a claim is decided
by the absent per-line revision, a separate model is built from the spec's
words and is marked as such in its doc comment.
-/

/-- Continuation byte test for UTF-8 (second and later bytes, 0x80..0xBF). -/
def isCont (b : Nat) : Bool := 128 ≤ b && b ≤ 191

/-- Lower bound for the second byte of a 3-byte sequence, per leading byte
(0xE0 forbids overlong encodings, others accept from 0x80). -/
def accept3lo (b0 : Nat) : Nat := if b0 == 224 then 160 else 128

/-- Upper bound for the second byte of a 3-byte sequence (0xED excludes
surrogates, others accept up to 0xBF). -/
def accept3hi (b0 : Nat) : Nat := if b0 == 237 then 159 else 191

/-- Lower bound for the second byte of a 4-byte sequence (0xF0 forbids
overlong encodings). -/
def accept4lo (b0 : Nat) : Nat := if b0 == 240 then 144 else 128

/-- Upper bound for the second byte of a 4-byte sequence (0xF4 caps the
code point at U+10FFFF). -/
def accept4hi (b0 : Nat) : Nat := if b0 == 244 then 143 else 191

/-- Byte-level model of Go's `utf8.DecodeRuneInString`: returns the first
rune of the byte list and its width in bytes.  On the empty string Go
returns `(RuneError, 0)`; on an invalid or truncated sequence it returns
`(RuneError, 1)`.  `RuneError` is U+FFFD = 65533. -/
def decodeRune : List Nat → Int × Nat
  | [] => (65533, 0)
  | b0 :: rest =>
    if b0 < 128 then ((b0 : Int), 1)
    else if b0 < 194 then (65533, 1)
    else if b0 ≤ 223 then
      match rest with
      | b1 :: _ =>
        if isCont b1 then (((b0 - 192) * 64 + (b1 - 128) : Nat), 2) else (65533, 1)
      | [] => (65533, 1)
    else if b0 ≤ 239 then
      match rest with
      | b1 :: b2 :: _ =>
        if accept3lo b0 ≤ b1 && b1 ≤ accept3hi b0 && isCont b2 then
          (((b0 - 224) * 4096 + (b1 - 128) * 64 + (b2 - 128) : Nat), 3)
        else (65533, 1)
      | _ => (65533, 1)
    else if b0 ≤ 244 then
      match rest with
      | b1 :: b2 :: b3 :: _ =>
        if accept4lo b0 ≤ b1 && b1 ≤ accept4hi b0 && isCont b2 && isCont b3 then
          (((b0 - 240) * 262144 + (b1 - 128) * 4096 + (b2 - 128) * 64 + (b3 - 128) : Nat), 4)
        else (65533, 1)
      | _ => (65533, 1)
    else (65533, 1)

theorem decodeRune_width_pos (b0 : Nat) (rest : List Nat) :
    1 ≤ (decodeRune (b0 :: rest)).2 := by
  rcases rest with _ | ⟨b1, _ | ⟨b2, _ | ⟨b3, rest⟩⟩⟩ <;>
    simp only [decodeRune] <;> split_ifs <;> simp

theorem decodeRune_width_le (l : List Nat) : (decodeRune l).2 ≤ l.length := by
  rcases l with _ | ⟨b0, _ | ⟨b1, _ | ⟨b2, _ | ⟨b3, rest⟩⟩⟩⟩ <;>
    simp only [decodeRune] <;> (try split_ifs) <;> simp

/-- Token kinds of the lexer, mirroring the Go enumeration itemElement
(itemEOF iota order preserved). -/
inductive itemElement
  | itemEOF
  | itemError
  | itemTitle
  | itemSectionAdornment
  | itemParagraph
  | itemBlockquote
  | itemLiteralBlock
  | itemSystemMessage
  | itemSpace
  | itemBlankLine
deriving DecidableEq, Repr

open itemElement

/-- Byte codes of the Go sectionAdornments rune slice, in source order:
bang, double quote, hash, dollar, apostrophe, percent, ampersand, left paren,
right paren, star, plus, comma, minus, dot, slash, colon, semicolon, less,
equals, greater, question, at, left bracket, backslash, right bracket, caret,
underscore, backquote, left brace, pipe, right brace, tilde. -/
def sectionAdornments : List Int :=
  [33, 34, 35, 36, 39, 37, 38, 40, 41, 42, 43, 44, 45, 46, 47, 58, 59, 60,
   61, 62, 63, 64, 91, 92, 93, 94, 95, 96, 123, 124, 125, 126]

/-- Go: const EOF rune = -1. -/
def EOF : Int := -1

/-- Go isEndOfLine: carriage return (13) or newline (10). -/
def isEndOfLine (r : Int) : Bool := r == 13 || r == 10

/-- Go isSpace: blank (32) or tab (9). -/
def isSpace (r : Int) : Bool := r == 32 || r == 9

/-- Go isSectionAdornment: linear scan of the adornment slice. -/
def isSectionAdornment (r : Int) : Bool := sectionAdornments.contains r

/-- Emitted token, mirroring the Go struct item.  ElementName is omitted: it
is always the print name of ElementType.  Value holds the bytes of the Go
string slice l.input[l.start:l.pos]. -/
structure item where
  ElementType : itemElement
  Position : Nat
  Line : Nat
  Value : List Nat
deriving DecidableEq, Repr

/-- Lexer state, mirroring the Go struct lexer.  The name field, the items
channel and lastPos (only consulted by nextItem) are dropped; emitted items
are threaded explicitly by the run function below.  pos, start and width are
Go Pos (int) values; they remain nonnegative in every reachable state, so
they are carried as Nat here. -/
structure Lexer where
  input : List Nat
  pos : Nat
  start : Nat
  width : Nat
  line : Nat
deriving DecidableEq, Repr

/-- Go lex(name, input): fresh lexer with line set to 1, other fields zero. -/
def lex (input : List Nat) : Lexer :=
  { input := input, pos := 0, start := 0, width := 0, line := 1 }

/-- Go (l *lexer) current(): decode the rune at l.pos without advancing.
At or past the end of input Go decodes the empty string, yielding RuneError. -/
def Lexer.current (l : Lexer) : Int := (decodeRune (l.input.drop l.pos)).1

/-- Go (l *lexer) next(): at end of input set width to 0 and return EOF;
otherwise decode at pos, record the width and advance pos by it. -/
def Lexer.next (l : Lexer) : Int × Lexer :=
  if l.pos ≥ l.input.length then (EOF, { l with width := 0 })
  else
    let d := decodeRune (l.input.drop l.pos)
    (d.1, { l with width := d.2, pos := l.pos + d.2 })

/-- Go (l *lexer) backup(): subtract the last recorded width from pos. -/
def Lexer.backup (l : Lexer) : Lexer := { l with pos := l.pos - l.width }

/-- Go (l *lexer) peek(): next followed by backup, returning the rune. -/
def Lexer.peek (l : Lexer) : Int × Lexer :=
  let n := l.next
  (n.1, n.2.backup)

/-- Go (l *lexer) ignore(): advance pos by one byte and reset start to it. -/
def Lexer.ignore (l : Lexer) : Lexer :=
  { l with pos := l.pos + 1, start := l.pos + 1 }

/-- Go (l *lexer) emit(t): build the item from the slice input[start:pos],
the stored start position and current line, then move start up to pos. -/
def Lexer.emit (l : Lexer) (t : itemElement) : Lexer × item :=
  ({ l with start := l.pos },
   { ElementType := t, Position := l.start, Line := l.line,
     Value := (l.input.drop l.start).take (l.pos - l.start) })

/-- Identity of the Go stateFn currently driving the run: lexStart iterations
(start), the entry of lexSection before its Loop (section), lexSection Loop
iterations (sectionLoop), and the nil state function (done). -/
inductive Phase
  | start
  | section
  | sectionLoop
  | done
deriving DecidableEq, Repr

/-- Configuration of the run: the pending state function plus lexer state. -/
structure Config where
  ph : Phase
  lx : Lexer
deriving DecidableEq, Repr

/-- Tail of one lexStart loop iteration: Go runs "if l.next() == EOF break"
and, after the loop, flushes a pending paragraph and emits EOF. -/
def lexStartTail (l : Lexer) (acc : List item) : Config × List item :=
  let n := l.next
  if n.1 == EOF then
    if n.2.pos > n.2.start then
      let e1 := n.2.emit itemParagraph
      let e2 := e1.1.emit itemEOF
      (⟨Phase.done, e2.1⟩, acc ++ [e1.2, e2.2])
    else
      let e2 := n.2.emit itemEOF
      (⟨Phase.done, e2.1⟩, acc ++ [e2.2])
  else (⟨Phase.start, n.2⟩, acc)

/-- One iteration of the for loop in Go lexStart.  The switch evaluates the
first case guard left to right (so peek only runs when the current rune is an
adornment), the second case only fires on an end of line, and every exit from
the switch falls into the bottom next-or-break test. -/
def stepStart (l : Lexer) : Config × List item :=
  if l.input.length == 0 then
    let e := l.emit itemEOF
    (⟨Phase.done, e.1⟩, [e.2])
  else
    let r := l.current
    if isSectionAdornment r then
      let p := l.peek
      if isSectionAdornment p.1 && (p.2.pos == 1) then (⟨Phase.section, p.2⟩, [])
      else lexStartTail p.2 []
    else if isEndOfLine r then
      let l1 := { l with line := l.line + 1 }
      let p := l1.peek
      if isSectionAdornment p.1 then (⟨Phase.section, p.2⟩, [])
      else if p.2.pos > p.2.start then
        let e := p.2.emit itemParagraph
        lexStartTail e.1.ignore [e.2]
      else lexStartTail p.2.ignore []
    else lexStartTail l []

/-- Entry of Go lexSection before its Loop: if the peeked rune is an end of
line, emit the text scanned so far as a title and skip the newline byte. -/
def stepSection (l : Lexer) : Config × List item :=
  let p := l.peek
  if isEndOfLine p.1 then
    let e := p.2.emit itemTitle
    (⟨Phase.sectionLoop, e.1.ignore⟩, [e.2])
  else (⟨Phase.sectionLoop, p.2⟩, [])

/-- One iteration of the Loop in Go lexSection: consume a rune; an adornment
rune continues, an end of line backs up, emits the adornment token, bumps the
line counter, skips the newline and returns to lexStart; any other rune
(including EOF) falls into the default of the switch and continues. -/
def stepSectionLoop (l : Lexer) : Config × List item :=
  let n := l.next
  if isSectionAdornment n.1 then (⟨Phase.sectionLoop, n.2⟩, [])
  else if isEndOfLine n.1 then
    let l1 := n.2.backup
    let e := l1.emit itemSectionAdornment
    let l2 := { e.1 with line := e.1.line + 1 }
    (⟨Phase.start, l2.ignore⟩, [e.2])
  else (⟨Phase.sectionLoop, n.2⟩, [])

/-- Dispatch one state function call, as Go run() does in its loop. -/
def step (c : Config) : Config × List item :=
  match c.ph with
  | Phase.start => stepStart c.lx
  | Phase.section => stepSection c.lx
  | Phase.sectionLoop => stepSectionLoop c.lx
  | Phase.done => (c, [])

/-- Fuel-indexed run of the state machine: some items when the nil state is
reached within the fuel bound, none otherwise.  A result of none for every
fuel value means the Go goroutine never terminates on that input. -/
def runFrom : Nat → Config → List item → Option (List item)
  | 0, _, _ => none
  | fuel + 1, c, acc =>
    match c.ph with
    | Phase.done => some acc
    | _ =>
      let s := step c
      runFrom fuel s.1 (acc ++ s.2)

/-- Run the lexer on an input with the given fuel. -/
def run (input : List Nat) (fuel : Nat) : Option (List item) :=
  runFrom fuel ⟨Phase.start, lex input⟩ []

/-- Items emitted so far, whether or not the run terminates: the partial
trace of tokens the goroutine sends on the channel within the fuel bound. -/
def partialFrom : Nat → Config → List item → List item
  | 0, _, acc => acc
  | fuel + 1, c, acc =>
    match c.ph with
    | Phase.done => acc
    | _ =>
      let s := step c
      partialFrom fuel s.1 (acc ++ s.2)

/-- Partial token trace of a run with the given fuel. -/
def partialRun (input : List Nat) (fuel : Nat) : List item :=
  partialFrom fuel ⟨Phase.start, lex input⟩ []

/-- Position reached from j after decoding one rune: j plus the decoded width. -/
def stepPos (bs : List Nat) (j : Nat) : Nat := j + (decodeRune (bs.drop j)).2

/-- WalkTo bs j i holds when the decode walk that starts at byte offset j and
repeatedly advances by the width of the rune decoded there reaches offset i.
WalkTo bs 0 i is the statement that i is a rune boundary of bs (the offsets a
correct byte cursor may occupy, with bs.length as the end sentinel). -/
inductive WalkTo (bs : List Nat) : Nat → Nat → Prop
  | refl (j : Nat) : WalkTo bs j j
  | step {j i : Nat} (h : j < bs.length) (hw : WalkTo bs (stepPos bs j) i) :
      WalkTo bs j i

theorem WalkTo.le {bs : List Nat} {a b : Nat} (h : WalkTo bs a b) : a ≤ b := by
  induction h with
  | refl j => exact Nat.le_refl j
  | step h hw ih => exact Nat.le_trans (Nat.le_add_right _ _) ih

theorem WalkTo.trans {bs : List Nat} {a b c : Nat}
    (h1 : WalkTo bs a b) (h2 : WalkTo bs b c) : WalkTo bs a c := by
  induction h1 with
  | refl j => exact h2
  | step h hw ih => exact WalkTo.step h (ih h2)

theorem stepPos_le_length {bs : List Nat} {j : Nat} (h : j < bs.length) :
    stepPos bs j ≤ bs.length := by
  have hw := decodeRune_width_le (bs.drop j)
  simp only [List.length_drop] at hw
  unfold stepPos
  omega

theorem stepPos_lt {bs : List Nat} {j : Nat} (h : j < bs.length) :
    j < stepPos bs j := by
  rcases hd : bs.drop j with _ | ⟨b0, rest⟩
  · exact absurd (List.drop_eq_nil_iff.mp hd) (by omega)
  · have := decodeRune_width_pos b0 rest
    unfold stepPos
    rw [hd]
    omega

theorem WalkTo.le_length {bs : List Nat} {a b : Nat}
    (h : WalkTo bs a b) (ha : a ≤ bs.length) : b ≤ bs.length := by
  induction h with
  | refl j => exact ha
  | step h hw ih => exact ih (stepPos_le_length h)

theorem walkTo_length_aux (bs : List Nat) :
    ∀ fuel j, bs.length - j ≤ fuel → j ≤ bs.length → WalkTo bs j bs.length := by
  intro fuel
  induction fuel with
  | zero =>
    intro j h1 h2
    have : j = bs.length := by omega
    exact this ▸ WalkTo.refl j
  | succ fuel ih =>
    intro j h1 h2
    rcases Nat.lt_or_ge j bs.length with hj | hj
    · exact WalkTo.step hj
        (ih _ (by have := stepPos_lt hj; omega) (stepPos_le_length hj))
    · have : j = bs.length := by omega
      exact this ▸ WalkTo.refl j

/-- The end of any byte list is a rune boundary: the decode walk reaches it. -/
theorem walkTo_length (bs : List Nat) : WalkTo bs 0 bs.length :=
  walkTo_length_aux bs bs.length 0 (by omega) (by omega)

/-- Walk from j toward i, returning the last walk offset strictly below i. -/
def prevStartAux (bs : List Nat) : Nat → Nat → Nat → Nat
  | 0, j, _ => j
  | fuel + 1, j, i =>
    if stepPos bs j < i then prevStartAux bs fuel (stepPos bs j) i else j

/-- Last rune boundary of bs strictly before offset i (for i a boundary with
0 < i, the start of the rune that ends at i). -/
def prevStart (bs : List Nat) (i : Nat) : Nat := prevStartAux bs i 0 i

theorem prevStartAux_spec (bs : List Nat) :
    ∀ fuel j i, WalkTo bs j i → j < i → i - j ≤ fuel →
      WalkTo bs j (prevStartAux bs fuel j i) ∧
        stepPos bs (prevStartAux bs fuel j i) = i ∧
        prevStartAux bs fuel j i < i := by
  intro fuel
  induction fuel with
  | zero => intro j i _ hlt hf; omega
  | succ fuel ih =>
    intro j i hw hlt hf
    rcases hw with _ | ⟨hj, hw⟩
    · omega
    · by_cases hstep : stepPos bs j < i
      · have hfuel : i - stepPos bs j ≤ fuel := by
          have := stepPos_lt hj; omega
        obtain ⟨w1, w2, w3⟩ := ih (stepPos bs j) i hw hstep hfuel
        refine ⟨?_, ?_, ?_⟩
        · simpa [prevStartAux, hstep] using WalkTo.step hj w1
        · simpa [prevStartAux, hstep] using w2
        · simpa [prevStartAux, hstep] using w3
      · have hle := WalkTo.le hw
        have heq : stepPos bs j = i := by omega
        refine ⟨?_, ?_, ?_⟩
        · simpa [prevStartAux, hstep] using WalkTo.refl j
        · simpa [prevStartAux, hstep] using heq
        · simpa [prevStartAux, hstep] using hlt

/-- Specification of prevStart on a rune boundary i with 0 < i: the result is
a boundary below i whose rune ends exactly at i (and so lies inside bs). -/
theorem prevStart_spec {bs : List Nat} {i : Nat}
    (hw : WalkTo bs 0 i) (hi : 0 < i) :
    WalkTo bs 0 (prevStart bs i) ∧ stepPos bs (prevStart bs i) = i ∧
      prevStart bs i < i ∧ prevStart bs i < bs.length := by
  unfold prevStart
  obtain ⟨w1, w2, w3⟩ := prevStartAux_spec bs i 0 i hw hi (by omega)
  refine ⟨w1, w2, w3, ?_⟩
  by_contra hge
  have hdrop : bs.drop (prevStartAux bs i 0 i) = [] :=
    List.drop_eq_nil_iff.mpr (by omega)
  have hfix : stepPos bs (prevStartAux bs i 0 i) = prevStartAux bs i 0 i := by
    unfold stepPos
    rw [hdrop]
    simp [decodeRune]
  omega

/-- Claim C1 (code_bug evidence): on the two-byte input "==" the state
machine reaches the Loop of lexSection and never leaves it: next() keeps
returning EOF, which matches neither the adornment nor the end-of-line case,
so no fuel bound suffices for the run to finish and no terminating EOF or
Error token is ever emitted, contradicting the specified guarantee that every
finite input ends in exactly one EOF or Error token. -/
theorem lexSection_diverges_on_equals_equals :
    ∀ fuel : Nat, run [61, 61] fuel = none := by
  have hstar : ∀ fuel acc,
      runFrom fuel ⟨Phase.sectionLoop, ⟨[61, 61], 2, 0, 0, 1⟩⟩ acc = none := by
    intro fuel
    induction fuel with
    | zero => intro acc; rfl
    | succ n ih =>
      intro acc
      show runFrom n ⟨Phase.sectionLoop, ⟨[61, 61], 2, 0, 0, 1⟩⟩ (acc ++ []) = none
      rw [List.append_nil]
      exact ih acc
  intro fuel
  rcases fuel with _ | _ | _ | _ | _ | n
  · rfl
  · rfl
  · rfl
  · rfl
  · rfl
  · show runFrom (n + 5) ⟨Phase.start, lex [61, 61]⟩ [] = none
    show runFrom n ⟨Phase.sectionLoop, ⟨[61, 61], 2, 0, 0, 1⟩⟩ [] = none
    exact hstar n []

/-- Claim C2 (code_bug evidence): on the input "Title\n=====\n\nParagraph
text\n" the lexer does not produce Title, SectionAdornment and BlankLine
tokens at all; it emits three Paragraph tokens (the underline is lexed as a
paragraph and the blank line's newline is folded into the following
paragraph's text) followed by EOF.  The byte lists spell the input and the
emitted values. -/
theorem run_title_underline_actual_tokens :
    run [84, 105, 116, 108, 101, 10, 61, 61, 61, 61, 61, 10, 10,
         80, 97, 114, 97, 103, 114, 97, 112, 104, 32, 116, 101, 120, 116, 10] 64 =
    some
      [⟨itemParagraph, 0, 2, [84, 105, 116, 108, 101]⟩,
       ⟨itemParagraph, 6, 3, [61, 61, 61, 61, 61]⟩,
       ⟨itemParagraph, 12, 4,
        [10, 80, 97, 114, 97, 103, 114, 97, 112, 104, 32, 116, 101, 120, 116]⟩,
       ⟨itemEOF, 28, 4, []⟩] := by
  rfl

theorem Lexer.peek_fst (l : Lexer) : l.peek.1 = l.next.1 := rfl

theorem Lexer.next_fst_of_lt {l : Lexer} (h : l.pos < l.input.length) :
    l.next.1 = l.current := by
  unfold Lexer.next Lexer.current
  rw [if_neg (by omega)]

theorem Lexer.next_fst_of_ge {l : Lexer} (h : l.input.length ≤ l.pos) :
    l.next.1 = EOF := by
  unfold Lexer.next
  rw [if_pos (by omega)]

theorem Lexer.current_of_ge {l : Lexer} (h : l.input.length ≤ l.pos) :
    l.current = 65533 := by
  unfold Lexer.current
  rw [List.drop_eq_nil_iff.mpr h]
  rfl

theorem Lexer.peek_pos (l : Lexer) : l.peek.2.pos = l.pos := by
  unfold Lexer.peek Lexer.next Lexer.backup
  split_ifs <;> simp

theorem Lexer.peek_start (l : Lexer) : l.peek.2.start = l.start := by
  unfold Lexer.peek Lexer.next Lexer.backup
  split_ifs <;> simp

theorem Lexer.peek_line (l : Lexer) : l.peek.2.line = l.line := by
  unfold Lexer.peek Lexer.next Lexer.backup
  split_ifs <;> simp

theorem Lexer.peek_input (l : Lexer) : l.peek.2.input = l.input := by
  unfold Lexer.peek Lexer.next Lexer.backup
  split_ifs <;> simp

theorem isSectionAdornment_EOF : isSectionAdornment EOF = false := by decide

theorem isSectionAdornment_err : isSectionAdornment 65533 = false := by decide

theorem not_eol_of_adorn {r : Int} (h : isSectionAdornment r = true) :
    isEndOfLine r = false := by
  by_contra hne
  have heol : isEndOfLine r = true := by
    cases hb : isEndOfLine r
    · exact absurd hb hne
    · rfl
  have hr : r = 13 ∨ r = 10 := by
    simpa [isEndOfLine] using heol
  rcases hr with hr | hr <;> subst hr <;> exact absurd h (by decide)

theorem lexStartTail_not_section (l : Lexer) (acc : List item) :
    (lexStartTail l acc).1.ph ≠ Phase.section := by
  simp only [lexStartTail]
  split_ifs <;> simp

/-- Claim C3 counterexample: on the input "T=" (bytes 84, 61), after one
step of the run (which consumes the one-byte rune T), the next Start-state
step transitions to the Section state, although the line's first rune T is
not an adornment character at all, and the first two runes T, = are neither
identical nor both adornments.  The guard in lexStart only consults the rune
at byte offset 1 and the condition pos == 1. -/
theorem lexStart_section_transition_counterexample :
    (step (step ⟨Phase.start, lex [84, 61]⟩).1).1.ph = Phase.section ∧
      isSectionAdornment 84 = false := by
  decide

/-- Claim C3 amended: a Start-state step hands control to lexSection exactly
when the document-global byte position equals 1 (one single-byte rune has
been consumed since the start of the document) and the rune at byte offset 1
is an adornment character.  No identity check between the first two runes is
made, and on any line after the first the transition can never fire (pos is
global, so pos = 1 only occurs near the document start); the newline guard
can never fire because peek() returns the newline itself. -/
theorem stepStart_section_iff (l : Lexer) :
    (stepStart l).1.ph = Phase.section ↔
      l.pos = 1 ∧ isSectionAdornment l.current = true := by
  by_cases hemp : l.input.length = 0
  · have hcur : l.current = 65533 := Lexer.current_of_ge (by omega)
    simp only [stepStart]
    rw [if_pos (by simpa using hemp)]
    simp only [hcur]
    simp
    exact fun _ => by decide
  · by_cases hado : isSectionAdornment l.current = true
    · have hlt : l.pos < l.input.length := by
        by_contra hge
        rw [Lexer.current_of_ge (by omega)] at hado
        exact absurd hado (by decide)
      have hpk : l.peek.1 = l.current := by
        rw [Lexer.peek_fst, Lexer.next_fst_of_lt hlt]
      simp only [stepStart]
      rw [if_neg (by simpa using hemp), if_pos hado, hpk, Lexer.peek_pos]
      by_cases hp1 : l.pos = 1
      · rw [if_pos (by simp [hado, hp1])]
        simp [hp1, hado]
      · rw [if_neg (by simp [hado, hp1])]
        simp only [hado, and_true, hp1, iff_false]
        exact fun hfalse => lexStartTail_not_section _ _ hfalse
    · have hrhs : ¬(l.pos = 1 ∧ isSectionAdornment l.current = true) := by
        intro hx
        exact hado hx.2
      simp only [stepStart]
      rw [if_neg (by simpa using hemp), if_neg hado]
      by_cases heol : isEndOfLine l.current = true
      · rw [if_pos heol]
        have hpk2 : isSectionAdornment ({ l with line := l.line + 1 } : Lexer).peek.1 = false := by
          by_cases hlt : l.pos < l.input.length
          · have : ({ l with line := l.line + 1 } : Lexer).peek.1 = l.current := by
              rw [Lexer.peek_fst, Lexer.next_fst_of_lt (by simpa using hlt)]
              unfold Lexer.current
              rfl
            rw [this]
            have hr : l.current = 13 ∨ l.current = 10 := by
              simpa [isEndOfLine] using heol
            rcases hr with hr | hr <;> rw [hr] <;> decide
          · have : ({ l with line := l.line + 1 } : Lexer).peek.1 = EOF := by
              rw [Lexer.peek_fst, Lexer.next_fst_of_ge (by simp; omega)]
            rw [this]
            decide
        rw [if_neg (by simp [hpk2])]
        simp only [hrhs, iff_false]
        split_ifs <;> exact fun hfalse => lexStartTail_not_section _ _ hfalse
      · rw [if_neg heol]
        simp only [hrhs, iff_false]
        exact fun hfalse => lexStartTail_not_section _ _ hfalse

theorem Lexer.peek_width (l : Lexer) : l.peek.2.width = l.next.2.width := rfl

theorem Lexer.next_fst_eq_of {l1 l2 : Lexer}
    (hi : l1.input = l2.input) (hp : l1.pos = l2.pos) : l1.next.1 = l2.next.1 := by
  simp only [Lexer.next, hi, hp]
  split_ifs <;> rfl

/-- Claim C4 counterexample: on a fresh lexer for "Title" the width field is
0; a single peek() changes it to 1 (the width of the peeked rune T), so
peek() does not leave every component of the cursor state unchanged. -/
theorem peek_mutates_width_counterexample :
    (lex [84, 105, 116, 108, 101]).width = 0 ∧
      (lex [84, 105, 116, 108, 101]).peek.2.width = 1 := by
  decide

/-- Claim C4 amended: peek() returns exactly the rune that a subsequent
next() would return, and it preserves the position, start, line and input
components of the cursor; the width component, however, is overwritten with
the width that next() records for the peeked rune (0 at end of input). -/
theorem peek_returns_next_rune_preserving_pos_line (l : Lexer) :
    l.peek.1 = l.next.1 ∧ l.peek.2.next.1 = l.peek.1 ∧
      l.peek.2.pos = l.pos ∧ l.peek.2.start = l.start ∧
      l.peek.2.line = l.line ∧ l.peek.2.input = l.input ∧
      l.peek.2.width = l.next.2.width := by
  refine ⟨Lexer.peek_fst l, ?_, Lexer.peek_pos l, Lexer.peek_start l,
    Lexer.peek_line l, Lexer.peek_input l, Lexer.peek_width l⟩
  rw [Lexer.peek_fst, Lexer.next_fst_eq_of (Lexer.peek_input l) (Lexer.peek_pos l)]

/-- Cursor operations as the specification's sequences use them: a raw
next(), a peek(), and the pattern backup-immediately-after-next that the
lexer itself uses (backup only ever runs inside peek and previous in the
source, directly after a next). -/
inductive CursorOp
  | opNext
  | opPeek
  | opNextBackup
deriving DecidableEq, Repr

/-- Apply one cursor operation to the lexer state. -/
def applyOp (l : Lexer) : CursorOp → Lexer
  | CursorOp.opNext => l.next.2
  | CursorOp.opPeek => l.peek.2
  | CursorOp.opNextBackup => l.next.2.backup

/-- Apply a sequence of cursor operations left to right. -/
def applyOps : Lexer → List CursorOp → Lexer := List.foldl applyOp

theorem applyOp_input (l : Lexer) (op : CursorOp) :
    (applyOp l op).input = l.input := by
  cases op <;>
    simp only [applyOp, Lexer.next, Lexer.backup, Lexer.peek] <;>
    split_ifs <;> rfl

theorem nextBackup_pos (l : Lexer) : l.next.2.backup.pos = l.pos := by
  simp only [Lexer.next, Lexer.backup]
  split_ifs <;> simp

theorem applyOp_walk (l : Lexer) (op : CursorOp)
    (h : WalkTo l.input 0 l.pos) : WalkTo l.input 0 (applyOp l op).pos := by
  cases op
  · by_cases hge : l.pos ≥ l.input.length
    · simpa [applyOp, Lexer.next, hge] using h
    · have hlt : l.pos < l.input.length := by omega
      have hnew : (applyOp l CursorOp.opNext).pos = stepPos l.input l.pos := by
        simp [applyOp, Lexer.next, hge, stepPos]
      rw [hnew]
      exact WalkTo.trans h (WalkTo.step hlt (WalkTo.refl _))
  · simpa [applyOp, Lexer.peek_pos] using h
  · simpa [applyOp, nextBackup_pos] using h

/-- Claim C5 counterexample: on the input consisting of a two-byte rune
(0xC3 0xA0) followed by b, the operation sequence next, next, backup, backup
leaves the byte cursor at position 1, which is strictly inside the two-byte
rune: not a rune boundary of the input.  The second bare backup() subtracts
the width of the last decoded rune again, which is not the width of the rune
that precedes the cursor. -/
theorem cursor_backup_backup_lands_mid_rune :
    (lex [195, 160, 98]).next.2.next.2.backup.backup.pos = 1 ∧
      ¬WalkTo [195, 160, 98] 0 1 := by
  constructor
  · decide
  · intro h
    cases h with
    | step h1 h2 =>
      have h3 := WalkTo.le h2
      have h4 : stepPos [195, 160, 98] 0 = 2 := by decide
      omega

/-- Claim C5 amended: every sequence of cursor operations in which each
backup() occurs immediately after a next() (the only pattern the source
uses: backup appears inside peek and previous only), together with bare
next() and peek() calls, keeps the byte cursor on a rune boundary of the
input or at the end-of-input byte length, for every input including
multi-byte runes.  A bare backup() that does not directly follow a next()
can land mid-rune, as the counterexample shows. -/
theorem cursor_ops_stay_on_rune_boundary (ops : List CursorOp) (l : Lexer)
    (h : WalkTo l.input 0 l.pos) : WalkTo l.input 0 (applyOps l ops).pos := by
  induction ops generalizing l with
  | nil => exact h
  | cons op ops ih =>
    show WalkTo l.input 0 (applyOps (applyOp l op) ops).pos
    have h2 : WalkTo (applyOp l op).input 0 (applyOp l op).pos := by
      rw [applyOp_input]
      exact applyOp_walk l op h
    have h3 := ih (applyOp l op) h2
    rwa [applyOp_input] at h3

/-- Witness for the amended C5 theorem: a concrete run of the sequence next,
peek, next-backup on the two-byte-rune input, starting from the fresh lexer
whose position 0 is trivially a boundary. -/
theorem cursor_ops_stay_on_rune_boundary_witness :
    WalkTo [195, 160, 98] 0
      (applyOps (lex [195, 160, 98])
        [CursorOp.opNext, CursorOp.opPeek, CursorOp.opNextBackup]).pos := by
  exact cursor_ops_stay_on_rune_boundary
    [CursorOp.opNext, CursorOp.opPeek, CursorOp.opNextBackup]
    (lex [195, 160, 98]) (WalkTo.refl 0)

/-- Claim C7 counterexample: on the input "Hi\n" the paragraph whose text
begins on line 1 at (1-based) position 1 is emitted with Line = 2 (lexStart
increments the line counter before flushing the paragraph at the newline)
and Position = 0 (a 0-based byte offset), so neither field is the 1-based
coordinate of where the token's text begins. -/
theorem token_position_line_counterexample :
    run [72, 105, 10] 16 =
      some [⟨itemParagraph, 0, 2, [72, 105]⟩, ⟨itemEOF, 3, 2, []⟩] := by
  rfl

/-- Token-position soundness predicate: the token's value is the slice of
the input that starts at the byte offset stored in Position. -/
def GoodItem (input : List Nat) (it : item) : Prop :=
  (input.drop it.Position).take it.Value.length = it.Value

theorem take_take_length (L : List Nat) (n : Nat) :
    L.take (L.take n).length = L.take n := by
  rw [List.length_take]
  rcases le_or_lt n L.length with h | h
  · rw [Nat.min_eq_left h]
  · rw [Nat.min_eq_right (Nat.le_of_lt h), List.take_length,
      List.take_of_length_le (Nat.le_of_lt h)]

theorem emit_good (l : Lexer) (t : itemElement) :
    GoodItem l.input (l.emit t).2 := by
  simp only [GoodItem, Lexer.emit]
  exact take_take_length _ _

theorem emit_input (l : Lexer) (t : itemElement) :
    (l.emit t).1.input = l.input := rfl

theorem next_input (l : Lexer) : l.next.2.input = l.input := by
  simp only [Lexer.next]
  split_ifs <;> rfl

theorem ignore_input (l : Lexer) : l.ignore.input = l.input := rfl

theorem backup_input (l : Lexer) : l.backup.input = l.input := rfl

theorem lexStartTail_good (l : Lexer) (acc : List item) :
    (lexStartTail l acc).1.lx.input = l.input ∧
      ∀ it ∈ (lexStartTail l acc).2, it ∈ acc ∨ GoodItem l.input it := by
  simp only [lexStartTail]
  split_ifs with h1 h2
  · refine ⟨by rw [emit_input, emit_input, next_input], ?_⟩
    intro it hit
    rcases List.mem_append.mp hit with hit | hit
    · exact Or.inl hit
    · simp only [List.mem_cons, List.not_mem_nil, or_false] at hit
      rcases hit with hit | hit
      · subst hit
        exact Or.inr (by rw [← next_input l]; exact emit_good _ _)
      · subst hit
        refine Or.inr ?_
        rw [← next_input l, ← emit_input l.next.2 itemParagraph]
        exact emit_good _ _
  · refine ⟨by rw [emit_input, next_input], ?_⟩
    intro it hit
    rcases List.mem_append.mp hit with hit | hit
    · exact Or.inl hit
    · simp only [List.mem_singleton] at hit
      subst hit
      exact Or.inr (by rw [← next_input l]; exact emit_good _ _)
  · exact ⟨next_input l, fun it hit => Or.inl hit⟩

theorem stepStart_good (l : Lexer) :
    (stepStart l).1.lx.input = l.input ∧
      ∀ it ∈ (stepStart l).2, GoodItem l.input it := by
  simp only [stepStart]
  split_ifs with h1 h2 h3 h4 h5 h6
  · refine ⟨emit_input l itemEOF, ?_⟩
    intro it hit
    simp only [List.mem_singleton] at hit
    subst hit
    exact emit_good l itemEOF
  · exact ⟨Lexer.peek_input l, by intro it hit; cases hit⟩
  · obtain ⟨hti, htg⟩ := lexStartTail_good l.peek.2 []
    refine ⟨by rw [hti, Lexer.peek_input], ?_⟩
    intro it hit
    rcases htg it hit with hin | hg
    · cases hin
    · rwa [Lexer.peek_input] at hg
  · refine ⟨Lexer.peek_input _, by intro it hit; cases hit⟩
  · obtain ⟨hti, htg⟩ :=
      lexStartTail_good (({ l with line := l.line + 1 } : Lexer).peek.2.emit itemParagraph).1.ignore
        [(({ l with line := l.line + 1 } : Lexer).peek.2.emit itemParagraph).2]
    refine ⟨by rw [hti, ignore_input, emit_input, Lexer.peek_input], ?_⟩
    intro it hit
    rcases htg it hit with hin | hg
    · simp only [List.mem_singleton] at hin
      subst hin
      have hg2 := emit_good (({ l with line := l.line + 1 } : Lexer).peek.2) itemParagraph
      rwa [Lexer.peek_input] at hg2
    · rwa [ignore_input, emit_input, Lexer.peek_input] at hg
  · obtain ⟨hti, htg⟩ :=
      lexStartTail_good ({ l with line := l.line + 1 } : Lexer).peek.2.ignore []
    refine ⟨by rw [hti, ignore_input, Lexer.peek_input], ?_⟩
    intro it hit
    rcases htg it hit with hin | hg
    · cases hin
    · rwa [ignore_input, Lexer.peek_input] at hg
  · obtain ⟨hti, htg⟩ := lexStartTail_good l []
    refine ⟨hti, ?_⟩
    intro it hit
    rcases htg it hit with hin | hg
    · cases hin
    · exact hg

theorem stepSection_good (l : Lexer) :
    (stepSection l).1.lx.input = l.input ∧
      ∀ it ∈ (stepSection l).2, GoodItem l.input it := by
  simp only [stepSection]
  split_ifs with h1
  · refine ⟨by rw [ignore_input, emit_input, Lexer.peek_input], ?_⟩
    intro it hit
    simp only [List.mem_singleton] at hit
    subst hit
    have hg := emit_good l.peek.2 itemTitle
    rwa [Lexer.peek_input] at hg
  · exact ⟨Lexer.peek_input l, by intro it hit; cases hit⟩

theorem stepSectionLoop_good (l : Lexer) :
    (stepSectionLoop l).1.lx.input = l.input ∧
      ∀ it ∈ (stepSectionLoop l).2, GoodItem l.input it := by
  simp only [stepSectionLoop]
  split_ifs with h1 h2
  · exact ⟨next_input l, by intro it hit; cases hit⟩
  · refine ⟨by rw [ignore_input]; rw [show ∀ x : Lexer, ({ x with line := x.line + 1 } : Lexer).input = x.input from fun x => rfl, emit_input, backup_input, next_input], ?_⟩
    intro it hit
    simp only [List.mem_singleton] at hit
    subst hit
    have hg := emit_good l.next.2.backup itemSectionAdornment
    rwa [backup_input, next_input] at hg
  · exact ⟨next_input l, by intro it hit; cases hit⟩

theorem step_good (c : Config) :
    (step c).1.lx.input = c.lx.input ∧
      ∀ it ∈ (step c).2, GoodItem c.lx.input it := by
  rcases c with ⟨ph, lx⟩
  cases ph
  · exact stepStart_good lx
  · exact stepSection_good lx
  · exact stepSectionLoop_good lx
  · exact ⟨rfl, by intro it hit; cases hit⟩

theorem runFrom_good_step {n : Nat} {c : Config} {acc items : List item}
    (ih : ∀ (c : Config) (acc items : List item),
      runFrom n c acc = some items →
      (∀ it ∈ acc, GoodItem c.lx.input it) →
      ∀ it ∈ items, GoodItem c.lx.input it)
    (h : runFrom n (step c).1 (acc ++ (step c).2) = some items)
    (hacc : ∀ it ∈ acc, GoodItem c.lx.input it) :
    ∀ it ∈ items, GoodItem c.lx.input it := by
  obtain ⟨hsi, hsg⟩ := step_good c
  have hacc2 : ∀ it ∈ acc ++ (step c).2, GoodItem (step c).1.lx.input it := by
    rw [hsi]
    intro it hit
    rcases List.mem_append.mp hit with hit | hit
    · exact hacc it hit
    · exact hsg it hit
  intro it hit
  have h2 := ih (step c).1 _ items h hacc2 it hit
  rwa [hsi] at h2

theorem runFrom_good :
    ∀ (fuel : Nat) (c : Config) (acc items : List item),
      runFrom fuel c acc = some items →
      (∀ it ∈ acc, GoodItem c.lx.input it) →
      ∀ it ∈ items, GoodItem c.lx.input it := by
  intro fuel
  induction fuel with
  | zero =>
    intro c acc items h
    simp [runFrom] at h
  | succ n ih =>
    intro c acc items h hacc
    rcases c with ⟨ph, lx⟩
    cases ph
    · exact runFrom_good_step ih (by simpa only [runFrom] using h) hacc
    · exact runFrom_good_step ih (by simpa only [runFrom] using h) hacc
    · exact runFrom_good_step ih (by simpa only [runFrom] using h) hacc
    · simp only [runFrom] at h
      injection h with h
      subst h
      exact hacc

/-- Claim C7 amended: a token's Position field is the 0-based byte offset in
the input at which the token's text begins: the token's value is exactly the
input slice starting there.  (The Line field is the lexer's line counter at
emission time, which the counterexample shows is not always the line where
the text begins, and positions are 0-based byte offsets, not 1-based.) -/
theorem token_value_is_input_slice_at_position
    (input : List Nat) (fuel : Nat) (items : List item)
    (h : run input fuel = some items) :
    ∀ it ∈ items, GoodItem input it := by
  have := runFrom_good fuel ⟨Phase.start, lex input⟩ [] items h
    (by intro it hit; cases hit)
  exact this

/-- Witness for the amended C7 theorem at the concrete input "Hi\n": the
first emitted paragraph token's value is the input slice at its Position. -/
theorem token_value_is_input_slice_at_position_witness :
    GoodItem [72, 105, 10] ⟨itemParagraph, 0, 2, [72, 105]⟩ :=
  token_value_is_input_slice_at_position [72, 105, 10] 16
    [⟨itemParagraph, 0, 2, [72, 105]⟩, ⟨itemEOF, 3, 2, []⟩] (by rfl)
    ⟨itemParagraph, 0, 2, [72, 105]⟩ (by simp)

/-- Token kinds that the complete revision's state machine can actually
emit. -/
def AllowedKind (t : itemElement) : Prop :=
  t = itemEOF ∨ t = itemParagraph ∨ t = itemSectionAdornment

/-- Invariant of reachable configurations: whenever control is about to
enter lexSection, the peeked rune is an adornment character (both guards
that select lexSection check exactly this), so the title branch of
lexSection, which requires the peeked rune to be an end of line, can never
fire. -/
def SectionInv (c : Config) : Prop :=
  c.ph = Phase.section → isSectionAdornment c.lx.peek.1 = true

theorem sectionInv_of_ne {c : Config} (h : c.ph ≠ Phase.section) :
    SectionInv c := fun hh => absurd hh h

theorem emit_type (l : Lexer) (t : itemElement) :
    (l.emit t).2.ElementType = t := rfl

theorem Lexer.peek_peek_fst (l : Lexer) : l.peek.2.peek.1 = l.peek.1 := by
  rw [Lexer.peek_fst, Lexer.peek_fst,
    Lexer.next_fst_eq_of (Lexer.peek_input l) (Lexer.peek_pos l)]

theorem lexStartTail_allowed (l : Lexer) (acc : List item)
    (hacc : ∀ it ∈ acc, AllowedKind it.ElementType) :
    ∀ it ∈ (lexStartTail l acc).2, AllowedKind it.ElementType := by
  simp only [lexStartTail]
  split_ifs with h1 h2 <;> intro it hit
  · rcases List.mem_append.mp hit with hit | hit
    · exact hacc it hit
    · simp only [List.mem_cons, List.not_mem_nil, or_false] at hit
      rcases hit with hit | hit <;> subst hit
      · exact Or.inr (Or.inl (emit_type _ _))
      · exact Or.inl (emit_type _ _)
  · rcases List.mem_append.mp hit with hit | hit
    · exact hacc it hit
    · simp only [List.mem_singleton] at hit
      subst hit
      exact Or.inl (emit_type _ _)
  · exact hacc it hit

theorem step_allowed (c : Config) (hinv : SectionInv c) :
    (∀ it ∈ (step c).2, AllowedKind it.ElementType) ∧
      SectionInv (step c).1 := by
  rcases c with ⟨ph, lx⟩
  cases ph
  · show (∀ it ∈ (stepStart lx).2, AllowedKind it.ElementType) ∧
      SectionInv (stepStart lx).1
    simp only [stepStart]
    split_ifs with h1 h2 h3 h4 h5 h6
    · refine ⟨?_, sectionInv_of_ne (by simp)⟩
      intro it hit
      simp only [List.mem_singleton] at hit
      subst hit
      exact Or.inl (emit_type _ _)
    · refine ⟨(by intro it hit; cases hit), ?_⟩
      intro _
      rw [Lexer.peek_peek_fst]
      exact (Bool.and_eq_true_iff.mp h3).1
    · exact ⟨lexStartTail_allowed _ _ (by intro it hit; cases hit),
        sectionInv_of_ne (lexStartTail_not_section _ _)⟩
    · refine ⟨(by intro it hit; cases hit), ?_⟩
      intro _
      rw [Lexer.peek_peek_fst]
      exact h5
    · exact ⟨lexStartTail_allowed _ _
        (by
          intro it hit
          simp only [List.mem_singleton] at hit
          subst hit
          exact Or.inr (Or.inl (emit_type _ _))),
        sectionInv_of_ne (lexStartTail_not_section _ _)⟩
    · exact ⟨lexStartTail_allowed _ _ (by intro it hit; cases hit),
        sectionInv_of_ne (lexStartTail_not_section _ _)⟩
    · exact ⟨lexStartTail_allowed _ _ (by intro it hit; cases hit),
        sectionInv_of_ne (lexStartTail_not_section _ _)⟩
  · show (∀ it ∈ (stepSection lx).2, AllowedKind it.ElementType) ∧
      SectionInv (stepSection lx).1
    have hA : isSectionAdornment lx.peek.1 = true := hinv rfl
    have hNE : isEndOfLine lx.peek.1 = false := not_eol_of_adorn hA
    simp only [stepSection]
    rw [if_neg (by simp [hNE])]
    exact ⟨(by intro it hit; cases hit), sectionInv_of_ne (by simp)⟩
  · show (∀ it ∈ (stepSectionLoop lx).2, AllowedKind it.ElementType) ∧
      SectionInv (stepSectionLoop lx).1
    simp only [stepSectionLoop]
    split_ifs with h1 h2
    · exact ⟨(by intro it hit; cases hit), sectionInv_of_ne (by simp)⟩
    · refine ⟨?_, sectionInv_of_ne (by simp)⟩
      intro it hit
      simp only [List.mem_singleton] at hit
      subst hit
      exact Or.inr (Or.inr (emit_type _ _))
    · exact ⟨(by intro it hit; cases hit), sectionInv_of_ne (by simp)⟩
  · exact ⟨(by intro it hit; cases hit), hinv⟩

theorem partialFrom_allowed_step {n : Nat} {c : Config} {acc : List item}
    (ih : ∀ (c : Config) (acc : List item), SectionInv c →
      (∀ it ∈ acc, AllowedKind it.ElementType) →
      ∀ it ∈ partialFrom n c acc, AllowedKind it.ElementType)
    (hinv : SectionInv c) (hacc : ∀ it ∈ acc, AllowedKind it.ElementType) :
    ∀ it ∈ partialFrom n (step c).1 (acc ++ (step c).2),
      AllowedKind it.ElementType := by
  obtain ⟨hits, hinv2⟩ := step_allowed c hinv
  refine ih (step c).1 _ hinv2 ?_
  intro it hit
  rcases List.mem_append.mp hit with hit | hit
  · exact hacc it hit
  · exact hits it hit

theorem partialFrom_allowed :
    ∀ (fuel : Nat) (c : Config) (acc : List item), SectionInv c →
      (∀ it ∈ acc, AllowedKind it.ElementType) →
      ∀ it ∈ partialFrom fuel c acc, AllowedKind it.ElementType := by
  intro fuel
  induction fuel with
  | zero =>
    intro c acc _ hacc
    simpa [partialFrom] using hacc
  | succ n ih =>
    intro c acc hinv hacc
    rcases c with ⟨ph, lx⟩
    cases ph
    · exact fun it hit =>
        partialFrom_allowed_step ih hinv hacc it (by simpa only [partialFrom] using hit)
    · exact fun it hit =>
        partialFrom_allowed_step ih hinv hacc it (by simpa only [partialFrom] using hit)
    · exact fun it hit =>
        partialFrom_allowed_step ih hinv hacc it (by simpa only [partialFrom] using hit)
    · intro it hit
      simp only [partialFrom] at hit
      exact hacc it hit

/-- Claim C10: every token the state machine emits, on any input and within
any fuel bound, whether or not the run terminates, has kind itemEOF,
itemParagraph or itemSectionAdornment.  In particular itemTitle, itemError,
itemSystemMessage, itemBlockquote, itemLiteralBlock, itemSpace and
itemBlankLine are never emitted: the only Title emission sits behind an
end-of-line peek test inside lexSection, but both transitions into
lexSection require that same peeked rune to be an adornment character, which
is never an end of line. -/
theorem lexer_emits_only_eof_paragraph_adornment
    (input : List Nat) (fuel : Nat) :
    ∀ it ∈ partialRun input fuel, AllowedKind it.ElementType := by
  refine partialFrom_allowed fuel ⟨Phase.start, lex input⟩ [] ?_ ?_
  · intro hh
    exact Phase.noConfusion hh
  · intro it hit
    cases hit

/-- Witness for the C10 theorem: on the empty input with fuel 1 the partial
trace contains exactly the EOF token, whose kind is allowed. -/
theorem lexer_emits_only_eof_paragraph_adornment_witness :
    AllowedKind (⟨itemEOF, 0, 1, []⟩ : item).ElementType :=
  lexer_emits_only_eof_paragraph_adornment [] 1
    (⟨itemEOF, 0, 1, []⟩ : item) (by decide)

/-- Modelled from the spec: the Line Table of the per-line cursor revision
(whose implementation, newLexer and friends, is absent from src/ and present
only through its tests).  Spec section 3: an ordered sequence of strings,
one per physical line of the source document.  Splitting is at newline
bytes, the newline belonging to neither side, with a final empty line for a
trailing newline (Go strings.Split semantics). -/
def splitLines : List Nat → List (List Nat)
  | [] => [[]]
  | b :: rest =>
    let r := splitLines rest
    if b == 10 then [] :: r
    else (b :: r.headD []) :: r.tail

/-- Modelled from the spec: cursor state of the per-line revision, spec
section 3: a line number (1-based), a byte index into the current line, and
the Line Table.  mark and width are decoded on demand from the position, so
they are exposed as a function rather than stored. -/
structure NLexer where
  lines : List (List Nat)
  line : Nat
  index : Nat
deriving DecidableEq, Repr

/-- Bytes of the cursor's current line (1-based line number). -/
def NLexer.curLine (st : NLexer) : List Nat := st.lines.getD (st.line - 1) []

/-- Decoded mark and width at the cursor: the invalid rune with width 0 at
the end-of-line sentinel position. -/
def NLexer.markWidth (st : NLexer) : Int × Nat := decodeRune (st.curLine.drop st.index)

/-- Modelled from the spec: fresh per-line cursor at line 1, index 0. -/
def newLexer (input : List Nat) : NLexer := ⟨splitLines input, 1, 0⟩

/-- Modelled from the spec, section 4.1: gotoLocation repositions the
cursor (out-of-range arguments are a caller contract violation). -/
def NLexer.gotoLocation (st : NLexer) (index line : Nat) : NLexer :=
  { st with index := index, line := line }

/-- Modelled from the spec, section 4.1 next(): decode the rune at the
cursor and advance index by its width; at the end of a non-final line the
cursor crosses to the next line's index 0; at the end of the final line it
stays put and yields the invalid-rune sentinel with width 0.  Returns the
decoded (rune, width) at the new position together with the new state, the
behaviour the repository's TestLexerNext table encodes. -/
def NLexer.next (st : NLexer) : (Int × Nat) × NLexer :=
  if st.index ≥ st.curLine.length then
    if st.line < st.lines.length then
      let st2 : NLexer := { st with line := st.line + 1, index := 0 }
      (st2.markWidth, st2)
    else (st.markWidth, st)
  else
    let st2 : NLexer := { st with index := st.index + st.markWidth.2 }
    (st2.markWidth, st2)

/-- Modelled from the spec, section 4.1 peek(): the rune and width next()
would return, with no state change by construction. -/
def NLexer.peek (st : NLexer) : Int × Nat := st.next.1

/-- One backward rune step of backup: inside a line, move to the last rune
boundary before index; at index 0, move to the end-of-line sentinel of the
previous line; at the document start, stay (backing below line 1 is
clamped), per spec section 4.1 backup(n) and TestLexerBackup. -/
def NLexer.backupStep (st : NLexer) : NLexer :=
  if st.index = 0 then
    if 1 < st.line then
      { st with line := st.line - 1, index := (st.lines.getD (st.line - 2) []).length }
    else st
  else { st with index := prevStart st.curLine st.index }

/-- Modelled from the spec, section 4.1 backup(n): move back n runes. -/
def NLexer.backup (st : NLexer) (n : Nat) : NLexer := NLexer.backupStep^[n] st

/-- Advance helper: the state after one next(). -/
def nextAdvance (st : NLexer) : NLexer := st.next.2

/-- n consecutive next() calls. -/
def NLexer.nextN (st : NLexer) (n : Nat) : NLexer := nextAdvance^[n] st

/-- The cursor sits at the document start (line 1, index 0), where a
further backup step is clamped. -/
def NLexer.atStart (st : NLexer) : Bool := st.index == 0 && decide (st.line ≤ 1)

/-- noClamp n st says n does not exceed the distance back to the document
start: none of the n successive backup steps from st is applied at the
document start. -/
def NLexer.noClamp : Nat → NLexer → Bool
  | 0, _ => true
  | n + 1, st => !st.atStart && NLexer.noClamp n st.backupStep

/-- Well-formed cursor: the line number is in range and the index is a rune
boundary of the current line (the invariant the spec states for index). -/
def NLexer.Wf (st : NLexer) : Prop :=
  1 ≤ st.line ∧ st.line ≤ st.lines.length ∧ WalkTo st.curLine 0 st.index

theorem NLexer.backupStep_wf {st : NLexer} (h : st.Wf) : st.backupStep.Wf := by
  rcases st with ⟨ls, ln, ix⟩
  obtain ⟨h1, h2, h3⟩ := h
  have h1a : 1 ≤ ln := h1
  have h2a : ln ≤ ls.length := h2
  have h3a : WalkTo (ls.getD (ln - 1) []) 0 ix := h3
  by_cases hz : ix = 0
  · by_cases hl : 1 < ln
    · have hbs : NLexer.backupStep ⟨ls, ln, ix⟩ =
          ⟨ls, ln - 1, (ls.getD (ln - 2) []).length⟩ := by
        simp [NLexer.backupStep, hz, hl]
      rw [hbs]
      refine ⟨?_, ?_, ?_⟩
      · show 1 ≤ ln - 1
        omega
      · show ln - 1 ≤ ls.length
        omega
      · show WalkTo (ls.getD (ln - 1 - 1) []) 0 (ls.getD (ln - 2) []).length
        rw [show ln - 1 - 1 = ln - 2 from by omega]
        exact walkTo_length _
    · have hbs : NLexer.backupStep ⟨ls, ln, ix⟩ = ⟨ls, ln, ix⟩ := by
        simp [NLexer.backupStep, hz, hl]
      rw [hbs]
      exact ⟨h1, h2, h3⟩
  · obtain ⟨w1, w2, w3, w4⟩ := prevStart_spec h3a (show 0 < ix from by omega)
    have hbs : NLexer.backupStep ⟨ls, ln, ix⟩ =
        ⟨ls, ln, prevStart (ls.getD (ln - 1) []) ix⟩ := by
      simp [NLexer.backupStep, NLexer.curLine, hz]
    rw [hbs]
    exact ⟨h1a, h2a, w1⟩

theorem NLexer.next_backupStep {st : NLexer} (h : st.Wf) (hs : st.atStart = false) :
    st.backupStep.next.2 = st := by
  rcases st with ⟨ls, ln, ix⟩
  obtain ⟨h1, h2, h3⟩ := h
  have h1a : 1 ≤ ln := h1
  have h2a : ln ≤ ls.length := h2
  have h3a : WalkTo (ls.getD (ln - 1) []) 0 ix := h3
  by_cases hz : ix = 0
  · have hl : 1 < ln := by
      simp [NLexer.atStart, hz] at hs
      omega
    have hbs : NLexer.backupStep ⟨ls, ln, ix⟩ =
        ⟨ls, ln - 1, (ls.getD (ln - 2) []).length⟩ := by
      simp [NLexer.backupStep, hz, hl]
    rw [hbs]
    simp only [NLexer.next, NLexer.curLine, NLexer.markWidth]
    rw [show ln - 1 - 1 = ln - 2 from by omega]
    split_ifs with hc1 hc2
    · rw [NLexer.mk.injEq]
      refine ⟨rfl, by omega, by omega⟩
    · exact absurd (show ln - 1 < ls.length from by omega) hc2
    · exact absurd (le_refl (ls.getD (ln - 2) []).length) hc1
  · obtain ⟨w1, w2, w3, w4⟩ := prevStart_spec h3a (show 0 < ix from by omega)
    have hbs : NLexer.backupStep ⟨ls, ln, ix⟩ =
        ⟨ls, ln, prevStart (ls.getD (ln - 1) []) ix⟩ := by
      simp [NLexer.backupStep, NLexer.curLine, hz]
    rw [hbs]
    simp only [NLexer.next, NLexer.curLine, NLexer.markWidth]
    split_ifs with hc1 hc2
    · exact absurd hc1 (by omega)
    · exact absurd hc1 (by omega)
    · rw [NLexer.mk.injEq]
      refine ⟨rfl, rfl, ?_⟩
      have hw := w2
      simp only [stepPos] at hw
      omega

theorem backup_nextN_roundtrip_aux (n : Nat) :
    ∀ st : NLexer, st.Wf → NLexer.noClamp n st = true →
      (st.backup n).nextN n = st := by
  induction n with
  | zero => intro st _ _; rfl
  | succ n ih =>
    intro st hwf hnc
    have hparts : (!st.atStart) = true ∧ NLexer.noClamp n st.backupStep = true := by
      simpa [NLexer.noClamp] using hnc
    have hA : st.atStart = false := by
      have := hparts.1
      simp at this
      exact this
    have hB := hparts.2
    have hwfb := NLexer.backupStep_wf hwf
    have heq1 : st.backup (n + 1) = st.backupStep.backup n := by
      simp [NLexer.backup, Function.iterate_succ_apply]
    have heq2 : (st.backupStep.backup n).nextN (n + 1) =
        nextAdvance ((st.backupStep.backup n).nextN n) := by
      simp [NLexer.nextN, Function.iterate_succ_apply']
    rw [heq1, heq2, ih st.backupStep hwfb hB]
    exact NLexer.next_backupStep hwf hA

/-- Claim C6 (spec-modelled: the per-line cursor implementation is absent
from src/, only its tests are; the model follows spec section 4.1 and the
repository's TestLexerBackup/TestLexerNext tables): from any well-formed
cursor position, backing up n runes and then calling next() n times returns
the cursor to its pre-backup position, rune and width, provided n does not
exceed the distance back to the document start (noClamp), including moves
across line boundaries and landings on multi-byte runes. -/
theorem backup_n_then_next_n_restores_cursor (st : NLexer) (n : Nat)
    (hwf : st.Wf) (hnc : NLexer.noClamp n st = true) :
    (st.backup n).nextN n = st ∧
      ((st.backup n).nextN n).markWidth = st.markWidth := by
  have h := backup_nextN_roundtrip_aux n st hwf hnc
  exact ⟨h, by rw [h]⟩

/-- Witness for the C6 theorem: the cursor on "à\nb" placed after the b on
line 2; backing up 3 runes crosses the line boundary and lands exactly on
the two-byte rune at the start of line 1, and three next() calls restore
the position. -/
theorem backup_n_then_next_n_restores_cursor_witness :
    NLexer.Wf ((newLexer [195, 160, 10, 98]).gotoLocation 1 2) ∧
      NLexer.noClamp 3 ((newLexer [195, 160, 10, 98]).gotoLocation 1 2) = true ∧
      ((((newLexer [195, 160, 10, 98]).gotoLocation 1 2).backup 3).nextN 3 =
          (newLexer [195, 160, 10, 98]).gotoLocation 1 2 ∧
        ((((newLexer [195, 160, 10, 98]).gotoLocation 1 2).backup 3).nextN 3).markWidth =
          ((newLexer [195, 160, 10, 98]).gotoLocation 1 2).markWidth) := by
  have hwf : NLexer.Wf ((newLexer [195, 160, 10, 98]).gotoLocation 1 2) :=
    ⟨by decide, by decide, WalkTo.step (by decide) (WalkTo.refl 1)⟩
  exact ⟨hwf, by decide,
    backup_n_then_next_n_restores_cursor _ 3 hwf (by decide)⟩

/-- Modelled from the spec: the per-line revision's token id assignment
(spec section 3, Token: id is assigned in strictly increasing order starting
at 1, scoped to one lexer run).  The revision's emit function is absent from
src/; only the id mechanism it implements is modelled here: the lexer keeps
a count of emitted tokens and stamps each new token with count + 1. -/
structure SpecToken where
  id : Nat
  kind : itemElement
deriving DecidableEq, Repr

/-- Modelled from the spec: the count of tokens emitted so far in one run. -/
structure IdEmitter where
  count : Nat
deriving DecidableEq, Repr

/-- Modelled from the spec: emitting stamps the token with count + 1 and
records the new count. -/
def IdEmitter.emitToken (e : IdEmitter) (k : itemElement) : SpecToken × IdEmitter :=
  (⟨e.count + 1, k⟩, ⟨e.count + 1⟩)

/-- Tokens produced by a run that emits the given sequence of kinds. -/
def emitRun (e : IdEmitter) : List itemElement → List SpecToken
  | [] => []
  | k :: ks =>
    let r := e.emitToken k
    r.1 :: emitRun r.2 ks

theorem emitRun_ids (ks : List itemElement) :
    ∀ c : Nat, (emitRun ⟨c⟩ ks).map SpecToken.id = List.range' (c + 1) ks.length := by
  induction ks with
  | nil => intro c; rfl
  | cons k ks ih =>
    intro c
    simp only [emitRun, IdEmitter.emitToken, List.map_cons, ih (c + 1),
      List.length_cons, List.range'_succ]

/-- Claim C8 (spec-modelled: the per-line revision's emit, which assigns
token ids, is absent from src/; the id mechanism is modelled from spec
section 3): within one run, every emitted token carries an id and the ids
form exactly the sequence 1, 2, 3, ... in emission order, whatever the
kinds emitted. -/
theorem token_ids_are_one_to_n (ks : List itemElement) :
    (emitRun ⟨0⟩ ks).map SpecToken.id = List.range' 1 ks.length :=
  emitRun_ids ks 0
